import Mathlib

/-!
Verification of the ringmpsc lock-free MPSC channel (src/c_impl/ringmpsc.h)
against its natural-language specification.

Shallow embedding conventions:
* every machine `uint64_t` / `size_t` value is a `Nat`; C unsigned
  subtraction `a - b` is `sub64 a b` (wraparound modulo 2^64) and stores of
  sums reduce modulo 2^64, so unsigned overflow behaves exactly as in C;
* `RING_CAPACITY` is `2 ^ RING_BITS` with `RING_BITS` a parameter named
  `bits` (the header default is 16 and the spec allows 1..63); the C index
  mask `tail & RING_MASK` equals `tail % 2 ^ bits` because the capacity is
  a power of two;
* pointers into the buffer are modeled as slot indices; the consume
  handler callback is modeled by returning the list of payload values the
  loop passes to it, in call order;
* each operation returns its C result together with the updated ring
  record (the C functions mutate the ring through a pointer).
-/

/-- Wraparound modulus of the 64-bit counters (`uint64_t`). -/
def U64 : Nat := 2 ^ 64

/-- Embeds `RING_CAPACITY = 1ULL << RING_BITS` (ringmpsc.h line 42). -/
def RING_CAPACITY (bits : Nat) : Nat := 2 ^ bits

/-- Embeds `MAX_PRODUCERS` (ringmpsc.h line 46, default configuration). -/
def MAX_PRODUCERS : Nat := 16

/-- C `uint64_t` subtraction `a - b`: wraparound modulo 2^64. -/
def sub64 (a b : Nat) : Nat := (a + (U64 - b % U64)) % U64

/-- The `ring_t` struct (ringmpsc.h lines 58-73).  Alignment attributes are
memory-layout directives with no functional content and are not modeled.
The buffer is a total map from slot index to stored word; all accesses in
the code are at indices reduced modulo the capacity. -/
structure ring_t where
  tail : Nat
  cached_head : Nat
  head : Nat
  cached_tail : Nat
  active : Bool
  closed : Bool
  buffer : Nat → Nat

/-- Embeds `ring_init` (ringmpsc.h lines 98-100): memset to zero. -/
def ring_init : ring_t :=
  { tail := 0, cached_head := 0, head := 0, cached_tail := 0,
    active := false, closed := false, buffer := fun _ => 0 }

/-- Embeds `ring_is_closed` (ringmpsc.h lines 116-118). -/
def ring_is_closed (r : ring_t) : Bool := r.closed

/-- Embeds `ring_reserve` (ringmpsc.h lines 123-140).  Returns the reserved slot
index (`tail & RING_MASK`, i.e. `tail % capacity`) or `none` for NULL,
together with the ring (the slow path refreshes `cached_head`). -/
def ring_reserve (bits : Nat) (r : ring_t) : Option Nat × ring_t :=
  let tail := r.tail
  let space := sub64 (RING_CAPACITY bits) (sub64 tail r.cached_head)
  if 1 ≤ space then
    (some (tail % RING_CAPACITY bits), r)
  else
    let r' := { r with cached_head := r.head }
    let space2 := sub64 (RING_CAPACITY bits) (sub64 tail r.head)
    if space2 < 1 then (none, r')
    else (some (tail % RING_CAPACITY bits), r')

/-- Embeds `ring_reserve_n` (ringmpsc.h lines 146-166).  On success returns
`some (idx, contiguous)`: the first reserved slot index and the value
stored through `out_contiguous`; `none` models the NULL return (in which
case the C code leaves `*out_contiguous` unwritten). -/
def ring_reserve_n (bits : Nat) (r : ring_t) (n : Nat) : Option (Nat × Nat) × ring_t :=
  if n = 0 ∨ RING_CAPACITY bits < n then (none, r)
  else
    let tail := r.tail
    let space := sub64 (RING_CAPACITY bits) (sub64 tail r.cached_head)
    let fin := fun (r2 : ring_t) =>
      let idx := tail % RING_CAPACITY bits
      let contiguous := RING_CAPACITY bits - idx
      let contiguous := if n < contiguous then n else contiguous
      ((some (idx, contiguous), r2) : Option (Nat × Nat) × ring_t)
    if space < n then
      let r' := { r with cached_head := r.head }
      let space2 := sub64 (RING_CAPACITY bits) (sub64 tail r.head)
      if space2 < n then (none, r') else fin r'
    else fin r

/-- Embeds `ring_commit` (ringmpsc.h lines 171-174): store `tail + n` (uint64
wraparound). -/
def ring_commit (r : ring_t) (n : Nat) : ring_t :=
  { r with tail := (r.tail + n) % U64 }

/-- The consume loop shared by `ring_consume_batch` and
`ring_consume_up_to`: starting at position `pos` it reads
`buffer[pos & RING_MASK]`, passing each value to the handler, and advances
`pos` with uint64 wraparound.  `fuel` is the number of iterations the C
`while` loop performs (`tail - head` resp. `to_consume`, both computed in
uint64 arithmetic, which is exactly how many increments bring `pos` to the
loop bound modulo 2^64).  Returns the values in handler-call order. -/
def consume_vals (bits : Nat) (buf : Nat → Nat) : Nat → Nat → List Nat
  | _, 0 => []
  | pos, fuel + 1 =>
      buf (pos % RING_CAPACITY bits) :: consume_vals bits buf ((pos + 1) % U64) fuel

/-- Embeds `ring_consume_batch` (ringmpsc.h lines 180-200).  Returns the updated
ring, the returned count, and the list of values passed to the handler in
order. -/
def ring_consume_batch (bits : Nat) (r : ring_t) : ring_t × Nat × List Nat :=
  let head := r.head
  let tail := r.tail
  let avail := sub64 tail head
  if avail = 0 then (r, 0, [])
  else ({ r with head := tail }, avail, consume_vals bits r.buffer head avail)

/-- Embeds `ring_consume_up_to` (ringmpsc.h lines 205-228). -/
def ring_consume_up_to (bits : Nat) (r : ring_t) (max_items : Nat) :
    ring_t × Nat × List Nat :=
  if max_items = 0 then (r, 0, [])
  else
    let head := r.head
    let tail := r.tail
    let avail := sub64 tail head
    if avail = 0 then (r, 0, [])
    else
      let to_consume := if avail < max_items then avail else max_items
      ({ r with head := (head + to_consume) % U64 }, to_consume,
        consume_vals bits r.buffer head to_consume)

/-- Embeds `ring_close` (ringmpsc.h lines 230-232). -/
def ring_close (r : ring_t) : ring_t := { r with closed := true }

/-- Embeds `producer_send` (ringmpsc.h lines 297-303): reserve one slot, write the
value, commit 1.  Returns the C bool result and the updated ring. -/
def producer_send (bits : Nat) (r : ring_t) (value : Nat) : Bool × ring_t :=
  match ring_reserve bits r with
  | (none, r') => (false, r')
  | (some idx, r') =>
      let r2 := { r' with buffer := fun i => if i = idx then value else r'.buffer i }
      (true, ring_commit r2 1)

/-- The `channel_t` struct (ringmpsc.h lines 78-82); `rings` is total over
`Nat`, the code only touches indices below `MAX_PRODUCERS`. -/
structure channel_t where
  rings : Nat → ring_t
  producer_count : Nat
  closed : Bool

/-- Embeds `channel_init` (ringmpsc.h lines 237-242). -/
def channel_init : channel_t :=
  { rings := fun _ => ring_init, producer_count := 0, closed := false }

/-- Embeds `channel_register` (ringmpsc.h lines 244-259).  Result: the C int code
(0 success, -1 closed, -2 too many producers), the producer handle as the
assigned ring id on success, and the updated channel.  The fetch-add and
the compensating fetch-sub of the failure path are composed sequentially,
matching the single-thread view of the routine. -/
def channel_register (ch : channel_t) : Int × Option Nat × channel_t :=
  if ch.closed then (-1, none, ch)
  else
    let id := ch.producer_count
    let ch1 := { ch with producer_count := ch.producer_count + 1 }
    if MAX_PRODUCERS ≤ id then
      (-2, none, { ch1 with producer_count := ch1.producer_count - 1 })
    else
      (0, some id,
        { ch1 with
          rings := fun i => if i = id then { ch1.rings id with active := true }
                            else ch1.rings i })

/-- Embeds `channel_close` (ringmpsc.h lines 270-276): set the channel flag, then
`ring_close` each ring below `producer_count`. -/
def channel_close (ch : channel_t) : channel_t :=
  { ch with
    closed := true,
    rings := fun i => if i < ch.producer_count then ring_close (ch.rings i)
                      else ch.rings i }

/-- Embeds `channel_is_closed` (ringmpsc.h lines 278-280). -/
def channel_is_closed (ch : channel_t) : Bool := ch.closed

/-!  Arithmetic facts about the uint64 embedding. -/

lemma U64_lit : U64 = 18446744073709551616 := by norm_num [U64]

lemma cap_lt_U64 (bits : Nat) (hb : bits ≤ 63) : RING_CAPACITY bits < U64 := by
  have h1 : RING_CAPACITY bits ≤ 2 ^ 63 :=
    Nat.pow_le_pow_right (by norm_num) hb
  have h2 : (2 : Nat) ^ 63 < 2 ^ 64 := by norm_num
  exact lt_of_le_of_lt h1 h2

lemma cap_dvd_U64 (bits : Nat) (hb : bits ≤ 64) : RING_CAPACITY bits ∣ U64 :=
  pow_dvd_pow 2 hb

/-- uint64 subtraction of in-range values with no borrow is Nat subtraction. -/
lemma sub64_small (a b : Nat) (hba : b ≤ a) (ha : a < U64) : sub64 a b = a - b := by
  simp only [sub64]
  rw [U64_lit] at *
  omega

/-- uint64 subtraction of two reduced counters recovers the logical
difference whenever it fits in 64 bits. -/
lemma sub64_mod_mod (t h : Nat) (hht : h ≤ t) (hd : t - h < U64) :
    sub64 (t % U64) (h % U64) = t - h := by
  simp only [sub64]
  rw [U64_lit] at *
  omega

lemma add_mod64 (a b : Nat) : (a % U64 + b) % U64 = (a + b) % U64 := by
  rw [U64_lit]
  omega

/-- Reducing a counter modulo 2^64 does not change its slot index, because
the capacity divides 2^64. -/
lemma mod_cap_add (bits : Nat) (hb : bits ≤ 64) (a k : Nat) :
    (a % U64 + k) % RING_CAPACITY bits = (a + k) % RING_CAPACITY bits := by
  have hdvd : RING_CAPACITY bits ∣ U64 := cap_dvd_U64 bits hb
  conv_lhs => rw [Nat.add_mod]
  conv_rhs => rw [Nat.add_mod]
  rw [Nat.mod_mod_of_dvd a hdvd]

lemma mod_cap_of_mod (bits : Nat) (hb : bits ≤ 64) (a : Nat) :
    a % U64 % RING_CAPACITY bits = a % RING_CAPACITY bits :=
  Nat.mod_mod_of_dvd a (cap_dvd_U64 bits hb)

/-- Two in-flight slot indices are distinct: positions `h + k` and `h + d`
with `k < d < capacity` hit different buffer slots. -/
lemma slot_ne (cap h k d : Nat) (hk : k < d) (hd : d < cap) :
    (h + k) % cap ≠ (h + d) % cap := by
  intro he
  have h1 : k ≡ d [MOD cap] := Nat.ModEq.add_left_cancel' h he
  have hke : k % cap = k := Nat.mod_eq_of_lt (lt_trans hk hd)
  have hde : d % cap = d := Nat.mod_eq_of_lt hd
  have : k % cap = d % cap := h1
  omega

lemma ite_lt_min (n m : Nat) : (if n < m then n else m) = min n m := by
  rcases Nat.lt_or_ge n m with h | h
  · rw [if_pos h, Nat.min_eq_left (Nat.le_of_lt h)]
  · rw [if_neg (Nat.not_lt.mpr h), Nat.min_eq_right h]

/-- Closed form of the consume loop: the values handed to the handler are
the buffer words at slots `pos + k mod capacity` for `k < fuel`. -/
lemma consume_vals_eq (bits : Nat) (hb : bits ≤ 64) (buf : Nat → Nat) :
    ∀ (fuel pos : Nat),
      consume_vals bits buf pos fuel
        = (List.range fuel).map fun k => buf ((pos + k) % RING_CAPACITY bits) := by
  intro fuel
  induction fuel with
  | zero => intro pos; simp [consume_vals]
  | succ m ih =>
      intro pos
      rw [consume_vals, ih ((pos + 1) % U64), List.range_succ_eq_map]
      simp only [List.map_cons, List.map_map]
      have hfun : (fun k => buf (((pos + 1) % U64 + k) % RING_CAPACITY bits))
          = ((fun k => buf ((pos + k) % RING_CAPACITY bits)) ∘ Nat.succ) := by
        funext k
        simp only [Function.comp]
        rw [mod_cap_add bits hb (pos + 1) k]
        have h : pos + 1 + k = pos + Nat.succ k := by omega
        rw [h]
      rw [hfun]
      simp

/-!  Characterizations of the ring operations over logical counters.

`t`, `h`, `ch` are the logical (unbounded, monotone) counters; the stored
uint64 fields are their reductions modulo 2^64.  The hypotheses are the
per-ring protocol invariants. -/

lemma ring_reserve_spec (bits : Nat) (r : ring_t) (t h ch : Nat)
    (ht : r.tail = t % U64) (hh : r.head = h % U64) (hc : r.cached_head = ch % U64)
    (h1 : ch ≤ h) (h2 : h ≤ t) (h3 : t ≤ ch + RING_CAPACITY bits) (hb : bits ≤ 63) :
    ring_reserve bits r =
      if t - ch < RING_CAPACITY bits then
        (some (t % RING_CAPACITY bits), r)
      else if t - h < RING_CAPACITY bits then
        (some (t % RING_CAPACITY bits), { r with cached_head := r.head })
      else (none, { r with cached_head := r.head }) := by
  have hcap : RING_CAPACITY bits < U64 := cap_lt_U64 bits hb
  have hTC : sub64 r.tail r.cached_head = t - ch := by
    rw [ht, hc]; exact sub64_mod_mod t ch (le_trans h1 h2) (by omega)
  have hTH : sub64 r.tail r.head = t - h := by
    rw [ht, hh]; exact sub64_mod_mod t h h2 (by omega)
  have hidx : r.tail % RING_CAPACITY bits = t % RING_CAPACITY bits := by
    rw [ht]; exact mod_cap_of_mod bits (le_trans hb (by norm_num)) t
  have hsp1 : sub64 (RING_CAPACITY bits) (t - ch) = RING_CAPACITY bits - (t - ch) :=
    sub64_small _ _ (by omega) hcap
  have hsp2 : sub64 (RING_CAPACITY bits) (t - h) = RING_CAPACITY bits - (t - h) :=
    sub64_small _ _ (by omega) hcap
  unfold ring_reserve
  simp only [hTC, hTH, hidx, hsp1, hsp2]
  by_cases hf : t - ch < RING_CAPACITY bits
  · have hcond : 1 ≤ RING_CAPACITY bits - (t - ch) := by omega
    rw [if_pos hcond, if_pos hf]
  · have hcond : ¬ 1 ≤ RING_CAPACITY bits - (t - ch) := by omega
    rw [if_neg hcond, if_neg hf]
    by_cases hs : t - h < RING_CAPACITY bits
    · have hcond2 : ¬ RING_CAPACITY bits - (t - h) < 1 := by omega
      rw [if_neg hcond2, if_pos hs]
    · have hcond2 : RING_CAPACITY bits - (t - h) < 1 := by omega
      rw [if_pos hcond2, if_neg hs]

lemma ring_reserve_n_spec (bits : Nat) (r : ring_t) (n t h ch : Nat)
    (ht : r.tail = t % U64) (hh : r.head = h % U64) (hc : r.cached_head = ch % U64)
    (h1 : ch ≤ h) (h2 : h ≤ t) (h3 : t ≤ ch + RING_CAPACITY bits) (hb : bits ≤ 63)
    (hn1 : 1 ≤ n) (hn2 : n ≤ RING_CAPACITY bits) :
    ring_reserve_n bits r n =
      if n ≤ RING_CAPACITY bits - (t - ch) then
        (some (t % RING_CAPACITY bits,
               min n (RING_CAPACITY bits - t % RING_CAPACITY bits)), r)
      else if n ≤ RING_CAPACITY bits - (t - h) then
        (some (t % RING_CAPACITY bits,
               min n (RING_CAPACITY bits - t % RING_CAPACITY bits)),
         { r with cached_head := r.head })
      else (none, { r with cached_head := r.head }) := by
  have hcap : RING_CAPACITY bits < U64 := cap_lt_U64 bits hb
  have hTC : sub64 r.tail r.cached_head = t - ch := by
    rw [ht, hc]; exact sub64_mod_mod t ch (le_trans h1 h2) (by omega)
  have hTH : sub64 r.tail r.head = t - h := by
    rw [ht, hh]; exact sub64_mod_mod t h h2 (by omega)
  have hidx : r.tail % RING_CAPACITY bits = t % RING_CAPACITY bits := by
    rw [ht]; exact mod_cap_of_mod bits (le_trans hb (by norm_num)) t
  have hsp1 : sub64 (RING_CAPACITY bits) (t - ch) = RING_CAPACITY bits - (t - ch) :=
    sub64_small _ _ (by omega) hcap
  have hsp2 : sub64 (RING_CAPACITY bits) (t - h) = RING_CAPACITY bits - (t - h) :=
    sub64_small _ _ (by omega) hcap
  have hinval : ¬ (n = 0 ∨ RING_CAPACITY bits < n) := by omega
  unfold ring_reserve_n
  rw [if_neg hinval]
  simp only [hTC, hTH, hidx, hsp1, hsp2, ite_lt_min]
  by_cases hf : n ≤ RING_CAPACITY bits - (t - ch)
  · have hcond : ¬ RING_CAPACITY bits - (t - ch) < n := by omega
    rw [if_neg hcond, if_pos hf]
  · have hcond : RING_CAPACITY bits - (t - ch) < n := by omega
    rw [if_pos hcond, if_neg hf]
    by_cases hs : n ≤ RING_CAPACITY bits - (t - h)
    · have hcond2 : ¬ RING_CAPACITY bits - (t - h) < n := by omega
      rw [if_neg hcond2, if_pos hs]
    · have hcond2 : RING_CAPACITY bits - (t - h) < n := by omega
      rw [if_pos hcond2, if_neg hs]

lemma ring_consume_batch_spec (bits : Nat) (r : ring_t) (t h : Nat)
    (ht : r.tail = t % U64) (hh : r.head = h % U64)
    (h2 : h ≤ t) (hd : t - h < U64) (hb : bits ≤ 64) :
    ring_consume_batch bits r =
      if t - h = 0 then (r, 0, [])
      else ({ r with head := r.tail }, t - h,
            (List.range (t - h)).map fun k => r.buffer ((h + k) % RING_CAPACITY bits)) := by
  have havail : sub64 r.tail r.head = t - h := by
    rw [ht, hh]; exact sub64_mod_mod t h h2 hd
  unfold ring_consume_batch
  simp only [havail]
  by_cases h0 : t - h = 0
  · rw [if_pos h0, if_pos h0]
  · rw [if_neg h0, if_neg h0]
    simp only [Prod.mk.injEq, true_and]
    rw [hh, consume_vals_eq bits hb r.buffer (t - h) (h % U64)]
    have hfun : (fun k => r.buffer ((h % U64 + k) % RING_CAPACITY bits))
        = fun k => r.buffer ((h + k) % RING_CAPACITY bits) := by
      funext k
      rw [mod_cap_add bits hb h k]
    rw [hfun]

lemma ring_consume_up_to_fields (bits : Nat) (r : ring_t) (m t h : Nat)
    (ht : r.tail = t % U64) (hh : r.head = h % U64)
    (h2 : h ≤ t) (hd : t < U64) :
    ((ring_consume_up_to bits r m).1).head = (h + min (t - h) m) % U64 ∧
    ((ring_consume_up_to bits r m).1).tail = r.tail ∧
    ((ring_consume_up_to bits r m).1).cached_head = r.cached_head ∧
    ((ring_consume_up_to bits r m).1).buffer = r.buffer := by
  have havail : sub64 r.tail r.head = t - h := by
    rw [ht, hh]; exact sub64_mod_mod t h h2 (by omega)
  unfold ring_consume_up_to
  simp only [havail, ite_lt_min]
  by_cases hm : m = 0
  · subst hm
    rw [if_pos rfl]
    refine ⟨?_, rfl, rfl, rfl⟩
    show r.head = (h + min (t - h) 0) % U64
    rw [hh, Nat.min_zero, Nat.add_zero]
  · rw [if_neg hm]
    by_cases h0 : t - h = 0
    · rw [if_pos h0]
      refine ⟨?_, rfl, rfl, rfl⟩
      show r.head = (h + min (t - h) m) % U64
      rw [hh, h0, Nat.min_eq_left (Nat.zero_le m), Nat.add_zero]
    · rw [if_neg h0]
      refine ⟨?_, rfl, rfl, rfl⟩
      show (r.head + min (t - h) m) % U64 = (h + min (t - h) m) % U64
      rw [hh, add_mod64]

/-!  The closed flag is never read by the producer-side operations. -/

lemma ring_reserve_closed (bits : Nat) (r : ring_t) (b : Bool) :
    ring_reserve bits { r with closed := b }
      = ((ring_reserve bits r).1, { (ring_reserve bits r).2 with closed := b }) := by
  unfold ring_reserve
  dsimp only
  by_cases hq : 1 ≤ sub64 (RING_CAPACITY bits) (sub64 r.tail r.cached_head)
  · rw [if_pos hq, if_pos hq]
  · rw [if_neg hq, if_neg hq]
    by_cases h2 : sub64 (RING_CAPACITY bits) (sub64 r.tail r.head) < 1
    · rw [if_pos h2, if_pos h2]
    · rw [if_neg h2, if_neg h2]

lemma ring_reserve_n_closed (bits : Nat) (r : ring_t) (n : Nat) (b : Bool) :
    ring_reserve_n bits { r with closed := b } n
      = ((ring_reserve_n bits r n).1, { (ring_reserve_n bits r n).2 with closed := b }) := by
  unfold ring_reserve_n
  dsimp only
  by_cases h0 : n = 0 ∨ RING_CAPACITY bits < n
  · rw [if_pos h0, if_pos h0]
  · rw [if_neg h0, if_neg h0]
    by_cases hq : sub64 (RING_CAPACITY bits) (sub64 r.tail r.cached_head) < n
    · rw [if_pos hq, if_pos hq]
      by_cases h2 : sub64 (RING_CAPACITY bits) (sub64 r.tail r.head) < n
      · rw [if_pos h2, if_pos h2]
      · rw [if_neg h2, if_neg h2]
    · rw [if_neg hq, if_neg hq]

lemma ring_commit_closed (r : ring_t) (n : Nat) (b : Bool) :
    ring_commit { r with closed := b } n = { ring_commit r n with closed := b } := rfl

lemma producer_send_closed (bits : Nat) (r : ring_t) (b : Bool) (v : Nat) :
    producer_send bits { r with closed := b } v
      = ((producer_send bits r v).1, { (producer_send bits r v).2 with closed := b }) := by
  unfold producer_send
  rw [ring_reserve_closed]
  rcases h : ring_reserve bits r with ⟨o, r2⟩
  cases o <;> rfl

/-- Claim C4 (confirmed): under the protocol invariants (`cached_head ≤
head ≤ tail ≤ head + capacity`, `tail - cached_head ≤ capacity`, `tail`
a 64-bit value), `ring_reserve` returns the slot `tail mod capacity` if
and only if `tail - head < capacity`, and it advances neither `tail` nor
`head` (the fast path may succeed from the stale `cached_head`, which is
safe because `cached_head ≤ head`). -/
theorem C4_ring_reserve (bits : Nat) (r : ring_t) (hb : bits ≤ 63)
    (h1 : r.cached_head ≤ r.head) (h2 : r.head ≤ r.tail)
    (h3 : r.tail ≤ r.head + RING_CAPACITY bits)
    (h4 : r.tail - r.cached_head ≤ RING_CAPACITY bits)
    (hw : r.tail < U64) :
    (ring_reserve bits r).1
        = (if r.tail - r.head < RING_CAPACITY bits
           then some (r.tail % RING_CAPACITY bits) else none)
    ∧ ((ring_reserve bits r).2).tail = r.tail
    ∧ ((ring_reserve bits r).2).head = r.head := by
  have hspec := ring_reserve_spec bits r r.tail r.head r.cached_head
    (Nat.mod_eq_of_lt hw).symm
    (Nat.mod_eq_of_lt (lt_of_le_of_lt h2 hw)).symm
    (Nat.mod_eq_of_lt (lt_of_le_of_lt (le_trans h1 h2) hw)).symm
    h1 h2 (by omega) hb
  rw [hspec]
  by_cases hf : r.tail - r.cached_head < RING_CAPACITY bits
  · rw [if_pos hf, if_pos (by omega : r.tail - r.head < RING_CAPACITY bits)]
    exact ⟨rfl, rfl, rfl⟩
  · rw [if_neg hf]
    by_cases hs : r.tail - r.head < RING_CAPACITY bits
    · rw [if_pos hs, if_pos hs]
      exact ⟨rfl, rfl, rfl⟩
    · rw [if_neg hs, if_neg hs]
      exact ⟨rfl, rfl, rfl⟩

/-- Witness for C4 at a concrete input. -/
theorem C4_ring_reserve_w :
    (ring_reserve 3 ring_init).1
        = (if ring_init.tail - ring_init.head < RING_CAPACITY 3
           then some (ring_init.tail % RING_CAPACITY 3) else none)
    ∧ ((ring_reserve 3 ring_init).2).tail = ring_init.tail
    ∧ ((ring_reserve 3 ring_init).2).head = ring_init.head :=
  C4_ring_reserve 3 ring_init (by norm_num) (by decide) (by decide) (by decide)
    (by decide) (by decide)

/-- Witness state refuting claim C3 as stated: it satisfies the claim's
precondition `cached_head ≤ head ≤ tail ≤ head + capacity` but its stale
`cached_head` lags `tail` by more than the capacity. -/
def c3r : ring_t := { ring_init with tail := 13, head := 5, cached_head := 0 }

/-- Claim C3 counterexample: at capacity 8 with `tail = 13`, `head = 5`,
`cached_head = 0`, the claim's precondition holds and the ring is full
(`capacity - (tail - head) = 0 < 1`), so the claim requires
`ring_reserve_n(r, 1)` to return none; the code's unsigned fast-path
space computation `capacity - (tail - cached_head)` wraps around to a
huge value and the call succeeds. -/
theorem C3_cex :
    c3r.cached_head ≤ c3r.head ∧ c3r.head ≤ c3r.tail
    ∧ c3r.tail ≤ c3r.head + RING_CAPACITY 3
    ∧ RING_CAPACITY 3 - (c3r.tail - c3r.head) < 1
    ∧ (ring_reserve_n 3 c3r 1).1 = some (5, 1) := by decide

/-- Claim C3 as amended (adding the invariant `tail - cached_head ≤
capacity`, which claim C4 already assumes for `ring_reserve`): for `1 ≤ n
≤ capacity`, `ring_reserve_n` fails iff `capacity - (tail - head) < n`;
on success it returns slot `tail mod capacity` and sets the out-parameter
to `min n (capacity - tail mod capacity)`; it modifies neither `tail` nor
`head` nor the buffer. -/
theorem C3_ring_reserve_n (bits : Nat) (r : ring_t) (n : Nat) (hb : bits ≤ 63)
    (h1 : r.cached_head ≤ r.head) (h2 : r.head ≤ r.tail)
    (h3 : r.tail ≤ r.head + RING_CAPACITY bits)
    (h4 : r.tail - r.cached_head ≤ RING_CAPACITY bits)
    (hw : r.tail < U64) (hn1 : 1 ≤ n) (hn2 : n ≤ RING_CAPACITY bits) :
    (ring_reserve_n bits r n).1
        = (if RING_CAPACITY bits - (r.tail - r.head) < n then none
           else some (r.tail % RING_CAPACITY bits,
                      min n (RING_CAPACITY bits - r.tail % RING_CAPACITY bits)))
    ∧ ((ring_reserve_n bits r n).2).tail = r.tail
    ∧ ((ring_reserve_n bits r n).2).head = r.head
    ∧ ((ring_reserve_n bits r n).2).buffer = r.buffer := by
  have hspec := ring_reserve_n_spec bits r n r.tail r.head r.cached_head
    (Nat.mod_eq_of_lt hw).symm
    (Nat.mod_eq_of_lt (lt_of_le_of_lt h2 hw)).symm
    (Nat.mod_eq_of_lt (lt_of_le_of_lt (le_trans h1 h2) hw)).symm
    h1 h2 (by omega) hb hn1 hn2
  rw [hspec]
  by_cases hf : n ≤ RING_CAPACITY bits - (r.tail - r.cached_head)
  · rw [if_pos hf,
        if_neg (by omega : ¬ RING_CAPACITY bits - (r.tail - r.head) < n)]
    exact ⟨rfl, rfl, rfl, rfl⟩
  · rw [if_neg hf]
    by_cases hs : n ≤ RING_CAPACITY bits - (r.tail - r.head)
    · rw [if_pos hs, if_neg (by omega : ¬ RING_CAPACITY bits - (r.tail - r.head) < n)]
      exact ⟨rfl, rfl, rfl, rfl⟩
    · rw [if_neg hs, if_pos (by omega : RING_CAPACITY bits - (r.tail - r.head) < n)]
      exact ⟨rfl, rfl, rfl, rfl⟩

/-- Witness for the amended C3 at a concrete input. -/
theorem C3_ring_reserve_n_w :
    (ring_reserve_n 3 ring_init 5).1
        = (if RING_CAPACITY 3 - (ring_init.tail - ring_init.head) < 5 then none
           else some (ring_init.tail % RING_CAPACITY 3,
                      min 5 (RING_CAPACITY 3 - ring_init.tail % RING_CAPACITY 3)))
    ∧ ((ring_reserve_n 3 ring_init 5).2).tail = ring_init.tail
    ∧ ((ring_reserve_n 3 ring_init 5).2).head = ring_init.head
    ∧ ((ring_reserve_n 3 ring_init 5).2).buffer = ring_init.buffer :=
  C3_ring_reserve_n 3 ring_init 5 (by norm_num) (by decide) (by decide) (by decide)
    (by decide) (by decide) (by decide) (by decide)

/-- Claim C5 (confirmed): for `head ≤ tail ≤ head + capacity`,
`ring_consume_batch` hands the handler `buffer[i mod capacity]` for each
`i` in `[head, tail)` in increasing order, then sets `head := tail` and
returns `tail - head`; on an empty ring it returns 0, delivers nothing,
and leaves the state untouched. -/
theorem C5_consume_batch (bits : Nat) (r : ring_t) (hb : bits ≤ 63)
    (h2 : r.head ≤ r.tail) (h3 : r.tail ≤ r.head + RING_CAPACITY bits)
    (hw : r.tail < U64) :
    ring_consume_batch bits r =
      if r.head = r.tail then (r, 0, [])
      else ({ r with head := r.tail }, r.tail - r.head,
            (List.range (r.tail - r.head)).map
              fun k => r.buffer ((r.head + k) % RING_CAPACITY bits)) := by
  have hspec := ring_consume_batch_spec bits r r.tail r.head
    (Nat.mod_eq_of_lt hw).symm
    (Nat.mod_eq_of_lt (lt_of_le_of_lt h2 hw)).symm
    h2 (by omega) (le_trans hb (by norm_num))
  rw [hspec]
  by_cases h0 : r.head = r.tail
  · rw [if_pos (by omega : r.tail - r.head = 0), if_pos h0]
  · rw [if_neg (by omega : ¬ r.tail - r.head = 0), if_neg h0]

/-- Witness ring for C5: capacity 8 holding the values 10 and 20. -/
def c5r : ring_t :=
  { ring_init with
    tail := 2,
    buffer := fun i => if i = 0 then 10 else if i = 1 then 20 else 0 }

/-- Witness for C5 at a concrete input: both pending values are delivered
in commit order and the head advances to the tail. -/
theorem C5_consume_batch_w :
    (ring_consume_batch 3 c5r).2.2 = [10, 20]
    ∧ (ring_consume_batch 3 c5r).1.head = 2
    ∧ (ring_consume_batch 3 c5r).2.1 = 2 := by
  have h := C5_consume_batch 3 c5r (by norm_num) (by decide) (by decide) (by decide)
  rw [h]
  decide

/-- Spec boundary-scenario ring for C6: capacity 8 with
`head = tail = 6` (and a coherent `cached_head = 6`). -/
def c6r : ring_t := { ring_init with tail := 6, head := 6, cached_head := 6 }

/-- Claim C6 counterexample: in the spec's wrap scenario the second
`reserve_n(5)` does return a pointer to slot 0, but with contiguous count
5, not 3 (all of slots 0..4 are free and `min(5, 8 - 0) = 5`). -/
theorem C6_cex :
    (ring_reserve_n 3 c6r 5).1 = some (6, 2)
    ∧ (ring_reserve_n 3 (ring_commit (ring_reserve_n 3 c6r 5).2 2) 5).1 ≠ some (0, 3) := by
  decide

/-- Claim C6 as amended: capacity 8, `head = tail = 6`; `reserve_n(5)`
returns slot 6 with contiguous 2; after `commit(2)`, a second
`reserve_n(5)` returns slot 0 with contiguous 5. -/
theorem C6_wrap_scenario :
    (ring_reserve_n 3 c6r 5).1 = some (6, 2)
    ∧ (ring_reserve_n 3 (ring_commit (ring_reserve_n 3 c6r 5).2 2) 5).1 = some (0, 5) := by
  decide

/-- A channel that is both closed and at the producer ceiling. -/
def chCF : channel_t :=
  { rings := fun _ => ring_init, producer_count := 16, closed := true }

/-- Claim C7 counterexample: `channel_register` checks `closed` before the
fetch-add, so on a channel that is both closed and at the ceiling it
returns the closed code (-1), not the too-many-producers code (-2) the
claim requires. -/
theorem C7_cex :
    chCF.closed = true ∧ MAX_PRODUCERS ≤ chCF.producer_count
    ∧ (channel_register chCF).1 = -1
    ∧ (channel_register chCF).1 ≠ -2 := by decide

/-- Claim C7 as amended: `channel_register` tests `closed` first and
returns the closed result without touching `producer_count` (even at the
ceiling); otherwise it fetch-adds, and if the pre-add value reaches
`MAX_PRODUCERS` it decrements back (net: unchanged) and reports too many
producers; otherwise it marks the assigned ring active and returns its
id.  The counter never exceeds `max producer_count MAX_PRODUCERS`. -/
theorem C7_channel_register (ch : channel_t) :
    channel_register ch =
      (if ch.closed then ((-1 : Int), none, ch)
       else if MAX_PRODUCERS ≤ ch.producer_count then ((-2 : Int), none, ch)
       else ((0 : Int), some ch.producer_count,
         { ch with
           producer_count := ch.producer_count + 1,
           rings := fun i => if i = ch.producer_count
                             then { ch.rings ch.producer_count with active := true }
                             else ch.rings i }))
    ∧ (channel_register ch).2.2.producer_count ≤ max ch.producer_count MAX_PRODUCERS := by
  constructor
  · unfold channel_register
    by_cases hc : ch.closed
    · rw [if_pos hc, if_pos hc]
    · rw [if_neg hc, if_neg hc]
      by_cases hm : MAX_PRODUCERS ≤ ch.producer_count
      · rw [if_pos hm, if_pos hm]
        rfl
      · rw [if_neg hm, if_neg hm]
  · unfold channel_register
    by_cases hc : ch.closed
    · rw [if_pos hc]
      exact Nat.le_max_left _ _
    · rw [if_neg hc]
      by_cases hm : MAX_PRODUCERS ≤ ch.producer_count
      · rw [if_pos hm]
        show ch.producer_count + 1 - 1 ≤ max ch.producer_count MAX_PRODUCERS
        omega
      · rw [if_neg hm]
        show ch.producer_count + 1 ≤ max ch.producer_count MAX_PRODUCERS
        have : MAX_PRODUCERS = 16 := rfl
        omega

/-- A channel with one registered producer (for the C8 instances). -/
def ch1 : channel_t := { channel_init with producer_count := 1 }

/-- Claim C8 counterexample: after `channel_close`, the registered ring
reports closed, yet a producer that attempts to proceed does NOT observe
failure: `producer_send` on the closed (non-full) ring still succeeds,
because no producer-side operation reads the closed flag. -/
theorem C8_cex :
    ring_is_closed ((channel_close ch1).rings 0) = true
    ∧ (producer_send 3 ((channel_close ch1).rings 0) 42).1 = true := by decide

/-- Claim C8 as amended: after `channel_close`, the channel reports
closed, every registered ring (index < producer_count) reports closed,
rings at unregistered indices are untouched (so remain not closed), and
producer-side `ring_reserve` is unaffected by the flag (producers detect
shutdown only by polling `ring_is_closed`, not through reserve failure). -/
theorem C8_close_cascade (ch : channel_t) (bits i : Nat) :
    channel_is_closed (channel_close ch) = true
    ∧ (i < ch.producer_count → ring_is_closed ((channel_close ch).rings i) = true)
    ∧ (ch.producer_count ≤ i → (channel_close ch).rings i = ch.rings i)
    ∧ (ring_reserve bits ((channel_close ch).rings i)).1
        = (ring_reserve bits (ch.rings i)).1 := by
  refine ⟨rfl, ?_, ?_, ?_⟩
  · intro hi
    show ring_is_closed (if i < ch.producer_count then ring_close (ch.rings i)
                         else ch.rings i) = true
    rw [if_pos hi]
    rfl
  · intro hi
    show (if i < ch.producer_count then ring_close (ch.rings i) else ch.rings i)
        = ch.rings i
    rw [if_neg (Nat.not_lt.mpr hi)]
  · show (ring_reserve bits (if i < ch.producer_count then ring_close (ch.rings i)
                             else ch.rings i)).1 = _
    by_cases hi : i < ch.producer_count
    · rw [if_pos hi]
      show (ring_reserve bits { ch.rings i with closed := true }).1 = _
      rw [ring_reserve_closed]
    · rw [if_neg hi]

/-- Witness for the amended C8 at a concrete input. -/
theorem C8_close_cascade_w :
    channel_is_closed (channel_close ch1) = true
    ∧ ring_is_closed ((channel_close ch1).rings 0) = true
    ∧ (ring_reserve 3 ((channel_close ch1).rings 0)).1
        = (ring_reserve 3 (ch1.rings 0)).1 := by
  have h := C8_close_cascade ch1 3 0
  exact ⟨h.1, h.2.1 (by decide), h.2.2.2⟩

/-- Claim C9 (confirmed, implicit frame property): `ring_commit r n`
unconditionally stores `tail + n mod 2^64` and changes nothing else; it
validates nothing, so an unpaired commit can push `tail - head` beyond
the capacity (committing 9 on an empty capacity-8 ring). -/
theorem C9_ring_commit (r : ring_t) (n : Nat) :
    (ring_commit r n).tail = (r.tail + n) % U64
    ∧ (ring_commit r n).head = r.head
    ∧ (ring_commit r n).cached_head = r.cached_head
    ∧ (ring_commit r n).cached_tail = r.cached_tail
    ∧ (ring_commit r n).active = r.active
    ∧ (ring_commit r n).closed = r.closed
    ∧ (ring_commit r n).buffer = r.buffer
    ∧ sub64 (ring_commit ring_init 9).tail (ring_commit ring_init 9).head = 9
    ∧ RING_CAPACITY 3 < 9 :=
  ⟨rfl, rfl, rfl, rfl, rfl, rfl, rfl, by decide, by decide⟩

/-- Claim C10 (confirmed, noninterference): flipping only the closed flag
changes neither the result nor the effect on any other field of
`ring_reserve`, `ring_reserve_n`, `ring_commit`, or `producer_send`; in
particular `producer_send` on a closed, non-full ring still succeeds and
publishes the value. -/
theorem C10_closed_noninterference (bits : Nat) (r : ring_t) (b : Bool) (v n : Nat) :
    ring_reserve bits { r with closed := b }
        = ((ring_reserve bits r).1, { (ring_reserve bits r).2 with closed := b })
    ∧ ring_reserve_n bits { r with closed := b } n
        = ((ring_reserve_n bits r n).1, { (ring_reserve_n bits r n).2 with closed := b })
    ∧ ring_commit { r with closed := b } n = { ring_commit r n with closed := b }
    ∧ producer_send bits { r with closed := b } v
        = ((producer_send bits r v).1, { (producer_send bits r v).2 with closed := b })
    ∧ (producer_send 3 { ring_init with closed := true } v).1 = true
    ∧ (producer_send 3 { ring_init with closed := true } v).2.buffer 0 = v :=
  ⟨ring_reserve_closed bits r b, ring_reserve_n_closed bits r n b,
   ring_commit_closed r n b, producer_send_closed bits r b v, rfl, rfl⟩

/-!  Sequential traces of ring operations (for claim C2).

A producer/consumer trace is modeled as a sequence of labeled steps.  The
pairing discipline of the claim - each commit(n) consumes a preceding
successful reserve whose contiguous count is at least n - is enforced by
carrying the contiguous count of the latest successful, not yet committed
reservation in the state (a failed reserve leaves a standing reservation
in place; reserve and commit do not change tail or head in between, only
consumes move head, so the standing count stays valid). -/

inductive RingOpT where
  | reserve
  | reserveN (n : Nat)
  | commit (n : Nat)
  | consumeBatch
  | consumeUpTo (k : Nat)
  | close

/-- Ring state plus the contiguous count of the standing reservation. -/
structure ProdState where
  ring : ring_t
  reserved : Option Nat

/-- One legal trace step (ring_reserve returns contiguous count 1). -/
inductive RingStep (bits : Nat) : RingOpT → ProdState → ProdState → Prop where
  | reserve_ok (s : ProdState) (idx : Nat) (r2 : ring_t)
      (h : ring_reserve bits s.ring = (some idx, r2)) :
      RingStep bits RingOpT.reserve s ⟨r2, some 1⟩
  | reserve_fail (s : ProdState) (r2 : ring_t)
      (h : ring_reserve bits s.ring = (none, r2)) :
      RingStep bits RingOpT.reserve s ⟨r2, s.reserved⟩
  | reserveN_ok (s : ProdState) (n idx c : Nat) (r2 : ring_t)
      (h : ring_reserve_n bits s.ring n = (some (idx, c), r2)) :
      RingStep bits (RingOpT.reserveN n) s ⟨r2, some c⟩
  | reserveN_fail (s : ProdState) (n : Nat) (r2 : ring_t)
      (h : ring_reserve_n bits s.ring n = (none, r2)) :
      RingStep bits (RingOpT.reserveN n) s ⟨r2, s.reserved⟩
  | commit (s : ProdState) (n c : Nat)
      (hres : s.reserved = some c) (hle : n ≤ c) :
      RingStep bits (RingOpT.commit n) s ⟨ring_commit s.ring n, none⟩
  | consumeBatch (s : ProdState) :
      RingStep bits RingOpT.consumeBatch s ⟨(ring_consume_batch bits s.ring).1, s.reserved⟩
  | consumeUpTo (s : ProdState) (k : Nat) :
      RingStep bits (RingOpT.consumeUpTo k) s ⟨(ring_consume_up_to bits s.ring k).1, s.reserved⟩
  | close (s : ProdState) :
      RingStep bits RingOpT.close s ⟨ring_close s.ring, s.reserved⟩

/-- A legal trace: a chain of legal steps. -/
inductive RingRun (bits : Nat) : ProdState → List RingOpT → ProdState → Prop where
  | nil (s : ProdState) : RingRun bits s [] s
  | cons {s t u : ProdState} {op : RingOpT} {ops : List RingOpT}
      (h1 : RingStep bits op s t) (h2 : RingRun bits t ops u) :
      RingRun bits s (op :: ops) u

/-- The per-ring protocol invariant: the claimed inequalities together
with the auxiliary facts the induction needs (tail lag of the cached head
is bounded, the tail fits in 64 bits, and a standing reservation fits in
the free space).  When no reservation stands, `reserved.getD 0 = 0` and
the last conjunct degenerates to the third. -/
def RingPInv (bits : Nat) (s : ProdState) : Prop :=
  s.ring.cached_head ≤ s.ring.head ∧
  s.ring.head ≤ s.ring.tail ∧
  s.ring.tail ≤ s.ring.cached_head + RING_CAPACITY bits ∧
  s.ring.tail ≤ s.ring.head + RING_CAPACITY bits ∧
  s.ring.tail < U64 ∧
  s.ring.tail + s.reserved.getD 0 ≤ s.ring.cached_head + RING_CAPACITY bits

/-- Claim C2 as amended: starting from the zeroed `ring_init` state, every
legal trace step (each commit pairing with a standing successful reserve
of contiguous count ≥ n) preserves `cached_head ≤ head ≤ tail`,
`tail - head ≤ capacity`, and keeps `head` and `tail` non-decreasing -
provided the commit does not overflow the 64-bit tail
(`tail + n < 2^64`).  Without that proviso the invariants fail (see the
counterexample at capacity 2^63). -/
theorem C2_invariants (bits : Nat) (hb : bits ≤ 63) :
    RingPInv bits ⟨ring_init, none⟩
    ∧ ∀ (op : RingOpT) (s s2 : ProdState),
        RingPInv bits s → RingStep bits op s s2 →
        (∀ n, op = RingOpT.commit n → s.ring.tail + n < U64) →
        RingPInv bits s2 ∧ s.ring.head ≤ s2.ring.head ∧ s.ring.tail ≤ s2.ring.tail := by
  constructor
  · exact ⟨Nat.le_refl 0, Nat.le_refl 0, Nat.zero_le _, Nat.zero_le _,
      by decide, Nat.zero_le _⟩
  · intro op s s2 hinv hstep hnw
    obtain ⟨i1, i2, i3, i4, i5, i6⟩ := hinv
    have hmods : s.ring.tail = s.ring.tail % U64 := (Nat.mod_eq_of_lt i5).symm
    have hmodsh : s.ring.head = s.ring.head % U64 :=
      (Nat.mod_eq_of_lt (lt_of_le_of_lt i2 i5)).symm
    have hmodsc : s.ring.cached_head = s.ring.cached_head % U64 :=
      (Nat.mod_eq_of_lt (lt_of_le_of_lt (le_trans i1 i2) i5)).symm
    cases hstep with
    | reserve_ok s idx r2 h =>
        rw [ring_reserve_spec bits s.ring s.ring.tail s.ring.head s.ring.cached_head
          hmods hmodsh hmodsc i1 i2 i3 hb] at h
        split at h
        · next hcond =>
            simp only [Prod.mk.injEq, Option.some.injEq] at h
            obtain ⟨-, hr⟩ := h
            subst hr
            refine ⟨⟨i1, i2, i3, i4, i5, ?_⟩, Nat.le_refl _, Nat.le_refl _⟩
            show s.ring.tail + 1 ≤ s.ring.cached_head + RING_CAPACITY bits
            omega
        · split at h
          · next hcond hcond2 =>
              simp only [Prod.mk.injEq, Option.some.injEq] at h
              obtain ⟨-, hr⟩ := h
              subst hr
              refine ⟨⟨Nat.le_refl _, i2, ?_, i4, i5, ?_⟩, Nat.le_refl _, Nat.le_refl _⟩
              · show s.ring.tail ≤ s.ring.head + RING_CAPACITY bits
                omega
              · show s.ring.tail + 1 ≤ s.ring.head + RING_CAPACITY bits
                omega
          · simp at h
    | reserve_fail s r2 h =>
        rw [ring_reserve_spec bits s.ring s.ring.tail s.ring.head s.ring.cached_head
          hmods hmodsh hmodsc i1 i2 i3 hb] at h
        split at h
        · simp at h
        · split at h
          · simp at h
          · next hcond hcond2 =>
              simp only [Prod.mk.injEq] at h
              obtain ⟨-, hr⟩ := h
              subst hr
              refine ⟨⟨Nat.le_refl _, i2, ?_, i4, i5, ?_⟩, Nat.le_refl _, Nat.le_refl _⟩
              · show s.ring.tail ≤ s.ring.head + RING_CAPACITY bits
                omega
              · show s.ring.tail + s.reserved.getD 0 ≤ s.ring.head + RING_CAPACITY bits
                omega
    | reserveN_ok s n idx c r2 h =>
        by_cases hvalid : n = 0 ∨ RING_CAPACITY bits < n
        · unfold ring_reserve_n at h
          rw [if_pos hvalid] at h
          simp at h
        · have hn1 : 1 ≤ n := by omega
          have hn2 : n ≤ RING_CAPACITY bits := by omega
          rw [ring_reserve_n_spec bits s.ring n s.ring.tail s.ring.head s.ring.cached_head
            hmods hmodsh hmodsc i1 i2 i3 hb hn1 hn2] at h
          have hminle : min n (RING_CAPACITY bits - s.ring.tail % RING_CAPACITY bits) ≤ n :=
            Nat.min_le_left _ _
          split at h
          · next hcond =>
              simp only [Prod.mk.injEq, Option.some.injEq] at h
              obtain ⟨⟨-, hc⟩, hr⟩ := h
              subst hr
              subst hc
              refine ⟨⟨i1, i2, i3, i4, i5, ?_⟩, Nat.le_refl _, Nat.le_refl _⟩
              show s.ring.tail + min n (RING_CAPACITY bits - s.ring.tail % RING_CAPACITY bits)
                  ≤ s.ring.cached_head + RING_CAPACITY bits
              omega
          · split at h
            · next hcond hcond2 =>
                simp only [Prod.mk.injEq, Option.some.injEq] at h
                obtain ⟨⟨-, hc⟩, hr⟩ := h
                subst hr
                subst hc
                refine ⟨⟨Nat.le_refl _, i2, ?_, i4, i5, ?_⟩, Nat.le_refl _, Nat.le_refl _⟩
                · show s.ring.tail ≤ s.ring.head + RING_CAPACITY bits
                  omega
                · show s.ring.tail + min n (RING_CAPACITY bits - s.ring.tail % RING_CAPACITY bits)
                      ≤ s.ring.head + RING_CAPACITY bits
                  omega
            · simp at h
    | reserveN_fail s n r2 h =>
        by_cases hvalid : n = 0 ∨ RING_CAPACITY bits < n
        · unfold ring_reserve_n at h
          rw [if_pos hvalid] at h
          simp only [Prod.mk.injEq] at h
          obtain ⟨-, hr⟩ := h
          subst hr
          exact ⟨⟨i1, i2, i3, i4, i5, i6⟩, Nat.le_refl _, Nat.le_refl _⟩
        · have hn1 : 1 ≤ n := by omega
          have hn2 : n ≤ RING_CAPACITY bits := by omega
          rw [ring_reserve_n_spec bits s.ring n s.ring.tail s.ring.head s.ring.cached_head
            hmods hmodsh hmodsc i1 i2 i3 hb hn1 hn2] at h
          split at h
          · simp at h
          · split at h
            · simp at h
            · next hcond hcond2 =>
                simp only [Prod.mk.injEq] at h
                obtain ⟨-, hr⟩ := h
                subst hr
                refine ⟨⟨Nat.le_refl _, i2, ?_, i4, i5, ?_⟩, Nat.le_refl _, Nat.le_refl _⟩
                · show s.ring.tail ≤ s.ring.head + RING_CAPACITY bits
                  omega
                · show s.ring.tail + s.reserved.getD 0 ≤ s.ring.head + RING_CAPACITY bits
                  omega
    | commit s n c hres hle =>
        have hnw' : s.ring.tail + n < U64 := hnw n rfl
        have htl : (ring_commit s.ring n).tail = s.ring.tail + n := by
          show (s.ring.tail + n) % U64 = s.ring.tail + n
          exact Nat.mod_eq_of_lt hnw'
        rw [hres, Option.getD_some] at i6
        refine ⟨⟨i1, ?_, ?_, ?_, ?_, ?_⟩, Nat.le_refl _, ?_⟩
        · show s.ring.head ≤ (ring_commit s.ring n).tail
          rw [htl]; omega
        · show (ring_commit s.ring n).tail ≤ s.ring.cached_head + RING_CAPACITY bits
          rw [htl]; omega
        · show (ring_commit s.ring n).tail ≤ s.ring.head + RING_CAPACITY bits
          rw [htl]; omega
        · show (ring_commit s.ring n).tail < U64
          rw [htl]; exact hnw'
        · show (ring_commit s.ring n).tail + (Option.getD none 0)
              ≤ s.ring.cached_head + RING_CAPACITY bits
          rw [htl, Option.getD_none]; omega
        · show s.ring.tail ≤ (ring_commit s.ring n).tail
          rw [htl]; omega
    | consumeBatch s =>
        have hspec := ring_consume_batch_spec bits s.ring s.ring.tail s.ring.head
          hmods hmodsh i2 (by omega) (le_trans hb (by norm_num))
        rw [hspec]
        split
        · exact ⟨⟨i1, i2, i3, i4, i5, i6⟩, Nat.le_refl _, Nat.le_refl _⟩
        · refine ⟨⟨le_trans i1 i2, Nat.le_refl _, i3, ?_, i5, i6⟩, i2, Nat.le_refl _⟩
          show s.ring.tail ≤ s.ring.tail + RING_CAPACITY bits
          omega
    | consumeUpTo s k =>
        obtain ⟨hh, ht, hc, -⟩ := ring_consume_up_to_fields bits s.ring k
          s.ring.tail s.ring.head hmods hmodsh i2 i5
        have hmin : min (s.ring.tail - s.ring.head) k ≤ s.ring.tail - s.ring.head :=
          Nat.min_le_left _ _
        have hh' : ((ring_consume_up_to bits s.ring k).1).head
            = s.ring.head + min (s.ring.tail - s.ring.head) k := by
          rw [hh]
          exact Nat.mod_eq_of_lt (by omega)
        refine ⟨⟨?_, ?_, ?_, ?_, ?_, ?_⟩, ?_, ?_⟩
        · show ((ring_consume_up_to bits s.ring k).1).cached_head
              ≤ ((ring_consume_up_to bits s.ring k).1).head
          rw [hc, hh']; omega
        · show ((ring_consume_up_to bits s.ring k).1).head
              ≤ ((ring_consume_up_to bits s.ring k).1).tail
          rw [hh', ht]; omega
        · show ((ring_consume_up_to bits s.ring k).1).tail
              ≤ ((ring_consume_up_to bits s.ring k).1).cached_head + RING_CAPACITY bits
          rw [ht, hc]; omega
        · show ((ring_consume_up_to bits s.ring k).1).tail
              ≤ ((ring_consume_up_to bits s.ring k).1).head + RING_CAPACITY bits
          rw [ht, hh']; omega
        · show ((ring_consume_up_to bits s.ring k).1).tail < U64
          rw [ht]; omega
        · show ((ring_consume_up_to bits s.ring k).1).tail + s.reserved.getD 0
              ≤ ((ring_consume_up_to bits s.ring k).1).cached_head + RING_CAPACITY bits
          rw [ht, hc]; omega
        · show s.ring.head ≤ ((ring_consume_up_to bits s.ring k).1).head
          rw [hh']; omega
        · show s.ring.tail ≤ ((ring_consume_up_to bits s.ring k).1).tail
          rw [ht]
    | close s =>
        exact ⟨⟨i1, i2, i3, i4, i5, i6⟩, Nat.le_refl _, Nat.le_refl _⟩

/-- Witness for C2: the invariant holds in the zeroed state and is carried
across a concrete commit step paired with a standing reservation. -/
theorem C2_invariants_w :
    RingPInv 3 ⟨ring_init, none⟩ ∧ RingPInv 3 ⟨ring_commit ring_init 1, none⟩ := by
  have h := C2_invariants 3 (by norm_num)
  refine ⟨h.1, ?_⟩
  have hinv : RingPInv 3 ⟨ring_init, some 1⟩ := by
    unfold RingPInv
    refine ⟨?_, ?_, ?_, ?_, ?_, ?_⟩ <;> decide
  have hstep : RingStep 3 (RingOpT.commit 1) ⟨ring_init, some 1⟩
      ⟨ring_commit ring_init 1, none⟩ :=
    RingStep.commit ⟨ring_init, some 1⟩ 1 1 rfl (Nat.le_refl 1)
  have hg : ∀ n, RingOpT.commit 1 = RingOpT.commit n →
      (⟨ring_init, some 1⟩ : ProdState).ring.tail + n < U64 := by
    intro n hn
    injection hn with he
    subst he
    decide
  exact (h.2 (RingOpT.commit 1) ⟨ring_init, some 1⟩ ⟨ring_commit ring_init 1, none⟩
    hinv hstep hg).1

/-- Intermediate and final states of the C2 counterexample trace at
capacity 2^63 (RING_BITS = 63, which the spec admits). -/
def c2s2 : ring_t := { ring_init with tail := 2 ^ 63 }

def c2s3 : ring_t := { ring_init with tail := 2 ^ 63, head := 2 ^ 63 }

def c2s4 : ring_t :=
  { ring_init with tail := 2 ^ 63, head := 2 ^ 63, cached_head := 2 ^ 63 }

def c2bad : ring_t := { ring_init with head := 2 ^ 63, cached_head := 2 ^ 63 }

/-- Claim C2 counterexample: at capacity 2^63, the legal trace
reserve_n(2^63); commit(2^63); consume_batch; reserve_n(2^63);
commit(2^63) - every commit paired with a successful reserve of exactly
that contiguous count - wraps the 64-bit tail to 0 while head = 2^63, so
the claimed invariants `head ≤ tail` and monotonicity of `tail` fail on
the code as the claim is stated (without a no-overflow proviso). -/
theorem C2_cex :
    RingRun 63 ⟨ring_init, none⟩
      [RingOpT.reserveN (2 ^ 63), RingOpT.commit (2 ^ 63), RingOpT.consumeBatch,
       RingOpT.reserveN (2 ^ 63), RingOpT.commit (2 ^ 63)]
      ⟨c2bad, none⟩
    ∧ ¬ c2bad.head ≤ c2bad.tail := by
  constructor
  · have h1 : RingStep 63 (RingOpT.reserveN (2 ^ 63)) ⟨ring_init, none⟩
        ⟨ring_init, some (2 ^ 63)⟩ :=
      RingStep.reserveN_ok ⟨ring_init, none⟩ (2 ^ 63) 0 (2 ^ 63) ring_init rfl
    have h2 : RingStep 63 (RingOpT.commit (2 ^ 63)) ⟨ring_init, some (2 ^ 63)⟩
        ⟨c2s2, none⟩ :=
      RingStep.commit ⟨ring_init, some (2 ^ 63)⟩ (2 ^ 63) (2 ^ 63) rfl (Nat.le_refl _)
    have h3 : RingStep 63 RingOpT.consumeBatch ⟨c2s2, none⟩ ⟨c2s3, none⟩ :=
      RingStep.consumeBatch ⟨c2s2, none⟩
    have h4 : RingStep 63 (RingOpT.reserveN (2 ^ 63)) ⟨c2s3, none⟩
        ⟨c2s4, some (2 ^ 63)⟩ :=
      RingStep.reserveN_ok ⟨c2s3, none⟩ (2 ^ 63) 0 (2 ^ 63) c2s4 rfl
    have h5 : RingStep 63 (RingOpT.commit (2 ^ 63)) ⟨c2s4, some (2 ^ 63)⟩
        ⟨c2bad, none⟩ :=
      RingStep.commit ⟨c2s4, some (2 ^ 63)⟩ (2 ^ 63) (2 ^ 63) rfl (Nat.le_refl _)
    exact RingRun.cons h1 (RingRun.cons h2 (RingRun.cons h3
      (RingRun.cons h4 (RingRun.cons h5 (RingRun.nil _)))))
  · decide

/-!  Round-trip delivery on one ring (claim C1).

One producer and the consumer interact with a single ring, modeled
sequentially: an event is either a `producer_send` (which may fail under
backpressure) or a `ring_consume_batch`.  `log` collects the values the
handler received, `sent` the values whose send succeeded, in order. -/

inductive SysEv where
  | send (v : Nat)
  | consume

structure SysSt where
  ring : ring_t
  log : List Nat
  sent : List Nat

def sysInit : SysSt := ⟨ring_init, [], []⟩

def sysStep (bits : Nat) (s : SysSt) : SysEv → SysSt
  | SysEv.send v =>
      let res := producer_send bits s.ring v
      { ring := res.2, log := s.log,
        sent := if res.1 then s.sent ++ [v] else s.sent }
  | SysEv.consume =>
      let res := ring_consume_batch bits s.ring
      { ring := res.1, log := s.log ++ res.2.2, sent := s.sent }

def runEvs (bits : Nat) (s : SysSt) : List SysEv → SysSt
  | [] => s
  | e :: es => runEvs bits (sysStep bits s e) es

/-- The payload words currently in flight: slots `[h, t)` read through the
capacity mask. -/
def ringContents (bits : Nat) (buf : Nat → Nat) (t h : Nat) : List Nat :=
  (List.range (t - h)).map fun k => buf ((h + k) % RING_CAPACITY bits)

/-- Delivery invariant, with the logical (unbounded) counters `t`, `h`,
`c` as ghosts: the stored uint64 fields are their reductions mod 2^64,
the counters respect the SPSC protocol bounds, and the values delivered
so far followed by the values still in flight are exactly the values
successfully sent, in order.  Because all the code ever uses are 64-bit
differences of counters whose lag is bounded by the capacity, this holds
with no bound on the trace length, even across uint64 wraparound. -/
def SysInv (bits : Nat) (s : SysSt) : Prop :=
  ∃ t h c : Nat,
    s.ring.tail = t % U64 ∧ s.ring.head = h % U64 ∧ s.ring.cached_head = c % U64 ∧
    c ≤ h ∧ h ≤ t ∧ t ≤ c + RING_CAPACITY bits ∧
    s.log ++ ringContents bits s.ring.buffer t h = s.sent

/-- Writing the next slot and bumping the logical tail appends the written
value to the in-flight contents. -/
lemma ringContents_snoc (bits : Nat) (buf : Nat → Nat) (v t h : Nat)
    (h2 : h ≤ t) (hlt : t - h < RING_CAPACITY bits) :
    ringContents bits (fun i => if i = t % RING_CAPACITY bits then v else buf i) (t + 1) h
      = ringContents bits buf t h ++ [v] := by
  unfold ringContents
  have h1 : t + 1 - h = (t - h) + 1 := by omega
  rw [h1, List.range_succ, List.map_append]
  congr 1
  · apply List.map_congr_left
    intro k hk
    have hk' : k < t - h := List.mem_range.mp hk
    have hne : (h + k) % RING_CAPACITY bits ≠ t % RING_CAPACITY bits := by
      have he : h + (t - h) = t := by omega
      have hx := slot_ne (RING_CAPACITY bits) h k (t - h) hk' hlt
      rw [he] at hx
      exact hx
    dsimp only
    rw [if_neg hne]
  · simp only [List.map_cons, List.map_nil]
    have he : h + (t - h) = t := by omega
    rw [he, if_pos rfl]

lemma ringContents_nil (bits : Nat) (buf : Nat → Nat) (t : Nat) :
    ringContents bits buf t t = [] := by
  unfold ringContents
  simp

lemma sysStep_inv (bits : Nat) (hb : bits ≤ 63) (s : SysSt) (e : SysEv)
    (hinv : SysInv bits s) : SysInv bits (sysStep bits s e) := by
  obtain ⟨t, h, c, ht, hh, hc, h1, h2, h3, hlog⟩ := hinv
  have hcap : RING_CAPACITY bits < U64 := cap_lt_U64 bits hb
  cases e with
  | consume =>
      have hspec := ring_consume_batch_spec bits s.ring t h ht hh h2 (by omega)
        (le_trans hb (by norm_num))
      simp only [sysStep]
      rw [hspec]
      by_cases h0 : t - h = 0
      · rw [if_pos h0]
        refine ⟨t, h, c, ht, hh, hc, h1, h2, h3, ?_⟩
        show (s.log ++ []) ++ ringContents bits s.ring.buffer t h = s.sent
        rw [List.append_nil]
        exact hlog
      · rw [if_neg h0]
        refine ⟨t, t, c, ht, ht, hc, le_trans h1 h2, Nat.le_refl t, h3, ?_⟩
        show (s.log ++ (List.range (t - h)).map
            (fun k => s.ring.buffer ((h + k) % RING_CAPACITY bits)))
          ++ ringContents bits s.ring.buffer t t = s.sent
        rw [ringContents_nil, List.append_nil]
        exact hlog
  | send v =>
      simp only [sysStep, producer_send]
      simp only [ring_reserve_spec bits s.ring t h c ht hh hc h1 h2 h3 hb]
      by_cases hf : t - c < RING_CAPACITY bits
      · simp only [if_pos hf]
        show SysInv bits
          ⟨ring_commit { s.ring with
              buffer := fun i => if i = t % RING_CAPACITY bits then v
                                 else s.ring.buffer i } 1,
            s.log, s.sent ++ [v]⟩
        refine ⟨t + 1, h, c, ?_, hh, hc, h1, by omega, by omega, ?_⟩
        · show (s.ring.tail + 1) % U64 = (t + 1) % U64
          rw [ht, add_mod64]
        · show s.log ++ ringContents bits
              (fun i => if i = t % RING_CAPACITY bits then v else s.ring.buffer i)
              (t + 1) h = s.sent ++ [v]
          rw [ringContents_snoc bits s.ring.buffer v t h h2 (by omega)]
          rw [← List.append_assoc, hlog]
      · simp only [if_neg hf]
        by_cases hs : t - h < RING_CAPACITY bits
        · simp only [if_pos hs]
          show SysInv bits
            ⟨ring_commit { s.ring with
                cached_head := s.ring.head,
                buffer := fun i => if i = t % RING_CAPACITY bits then v
                                   else s.ring.buffer i } 1,
              s.log, s.sent ++ [v]⟩
          refine ⟨t + 1, h, h, ?_, hh, hh, Nat.le_refl h, by omega, by omega, ?_⟩
          · show (s.ring.tail + 1) % U64 = (t + 1) % U64
            rw [ht, add_mod64]
          · show s.log ++ ringContents bits
                (fun i => if i = t % RING_CAPACITY bits then v else s.ring.buffer i)
                (t + 1) h = s.sent ++ [v]
            rw [ringContents_snoc bits s.ring.buffer v t h h2 (by omega)]
            rw [← List.append_assoc, hlog]
        · simp only [if_neg hs]
          show SysInv bits ⟨{ s.ring with cached_head := s.ring.head }, s.log, s.sent⟩
          exact ⟨t, h, h, ht, hh, hh, Nat.le_refl h, h2, by omega, hlog⟩

lemma sysInit_inv (bits : Nat) : SysInv bits sysInit := by
  refine ⟨0, 0, 0, ?_, ?_, ?_, Nat.le_refl 0, Nat.le_refl 0, Nat.zero_le _, ?_⟩
  · decide
  · decide
  · decide
  · rw [ringContents_nil, List.append_nil]
    rfl

lemma runEvs_inv (bits : Nat) (hb : bits ≤ 63) :
    ∀ (evs : List SysEv) (s : SysSt), SysInv bits s → SysInv bits (runEvs bits s evs) := by
  intro evs
  induction evs with
  | nil => intro s hs; exact hs
  | cons e es ih => intro s hs; exact ih (sysStep bits s e) (sysStep_inv bits hb s e hs)

/-- Claim C1 (confirmed): over any sequence of (possibly failing)
producer_send events interleaved with ring_consume_batch events on one
ring, once the ring is drained (`head = tail`) the values the handler
received are exactly the values whose send succeeded, each exactly once
and in send order - in particular a value committed first is seen
first. -/
theorem C1_delivery (bits : Nat) (evs : List SysEv) (hb : bits ≤ 63)
    (hdrained : (runEvs bits sysInit evs).ring.head = (runEvs bits sysInit evs).ring.tail) :
    (runEvs bits sysInit evs).log = (runEvs bits sysInit evs).sent := by
  obtain ⟨t, h, c, ht, hh, hc, h1, h2, h3, hlog⟩ :=
    runEvs_inv bits hb evs sysInit (sysInit_inv bits)
  have hth : t - h < U64 := by
    have := cap_lt_U64 bits hb
    omega
  have hmod : h % U64 = t % U64 := by
    rw [← hh, ← ht]
    exact hdrained
  have hdvd : U64 ∣ t - h := (Nat.modEq_iff_dvd' h2).mp hmod
  have ht0 : t - h = 0 := Nat.eq_zero_of_dvd_of_lt hdvd hth
  rw [← hlog]
  have hnil : ringContents bits (runEvs bits sysInit evs).ring.buffer t h = [] := by
    unfold ringContents
    rw [ht0]
    simp
  rw [hnil, List.append_nil]

/-- Witness for C1: two sends then a draining consume at capacity 8. -/
theorem C1_delivery_w :
    (runEvs 3 sysInit [SysEv.send 4, SysEv.send 7, SysEv.consume]).log
      = (runEvs 3 sysInit [SysEv.send 4, SysEv.send 7, SysEv.consume]).sent :=
  C1_delivery 3 [SysEv.send 4, SysEv.send 7, SysEv.consume] (by norm_num) (by decide)
